import Mathlib

/-!
Verification of `lina/utils.py` (numerical utilities for high-contrast
imaging wavefront control).  Arrays are modelled as total functions
`ℕ → ℕ → α` (2D) or `List α` (1D); only indices below the stated size are
meaningful.  Machine floats are modelled as elements of a linear ordered
field (instantiated at `ℝ` or `ℚ`); fallible numpy operations return
`Option`.
-/

namespace Lina

/-! ## pad_or_crop

`pad_or_crop(arr_in, npix)`: returns the input when sizes agree, the
central `npix×npix` crop when shrinking (offset `n//2 - npix//2`), and a
zero-padded `npix×npix` array with the input placed at offset
`npix//2 - n//2` when growing.  `n` is the input size; entries of the
result are meaningful for indices below `npix`. -/
def pad_or_crop {α : Type} [Zero α] (arr : ℕ → ℕ → α) (n npix : ℕ) : ℕ → ℕ → α :=
  if n = npix then
    arr
  else if npix < n then
    fun i j => arr (n / 2 - npix / 2 + i) (n / 2 - npix / 2 + j)
  else
    fun i j =>
      if npix / 2 - n / 2 ≤ i ∧ i < npix / 2 - n / 2 + n ∧
         npix / 2 - n / 2 ≤ j ∧ j < npix / 2 - n / 2 + n then
        arr (i - (npix / 2 - n / 2)) (j - (npix / 2 - n / 2))
      else 0

/-- C3: round-tripping `pad_or_crop` through size `m` and back to size `n`
returns the array exactly when `n ≤ m`, and returns the central `m×m` crop
window (offset `n/2 - m/2`) with zeros outside it when `m < n`. -/
theorem pad_or_crop_roundtrip {α : Type} [Zero α] (arr : ℕ → ℕ → α) (n m i j : ℕ)
    (hi : i < n) (hj : j < n) :
    (n ≤ m → pad_or_crop (pad_or_crop arr n m) m n i j = arr i j) ∧
    (m < n → pad_or_crop (pad_or_crop arr n m) m n i j =
      if n / 2 - m / 2 ≤ i ∧ i < n / 2 - m / 2 + m ∧
         n / 2 - m / 2 ≤ j ∧ j < n / 2 - m / 2 + m then arr i j else 0) := by
  constructor
  · intro hnm
    rcases eq_or_lt_of_le hnm with heq | hlt
    · subst heq
      simp [pad_or_crop]
    · have hne : n ≠ m := Nat.ne_of_lt hlt
      have hne' : m ≠ n := Nat.ne_of_gt hlt
      have hnotlt : ¬ m < n := Nat.not_lt.mpr hnm
      -- inner call pads n → m, outer call crops m → n
      simp only [pad_or_crop, if_neg hne, if_neg hnotlt, if_neg hne', if_pos hlt]
      have h1 : m / 2 - n / 2 ≤ m / 2 - n / 2 + i := Nat.le_add_right _ _
      have h2 : m / 2 - n / 2 + i < m / 2 - n / 2 + n := by omega
      have h3 : m / 2 - n / 2 ≤ m / 2 - n / 2 + j := Nat.le_add_right _ _
      have h4 : m / 2 - n / 2 + j < m / 2 - n / 2 + n := by omega
      rw [if_pos ⟨h1, h2, h3, h4⟩]
      congr 1 <;> omega
  · intro hmn
    have hne : n ≠ m := Nat.ne_of_gt hmn
    have hne' : m ≠ n := Nat.ne_of_lt hmn
    have hnotlt : ¬ n < m := Nat.not_lt.mpr (Nat.le_of_lt hmn)
    -- inner call crops n → m, outer call pads m → n
    simp only [pad_or_crop, if_neg hne, if_pos hmn, if_neg hne', if_neg hnotlt]
    by_cases hwin : n / 2 - m / 2 ≤ i ∧ i < n / 2 - m / 2 + m ∧
        n / 2 - m / 2 ≤ j ∧ j < n / 2 - m / 2 + m
    · rw [if_pos hwin, if_pos hwin]
      congr 1 <;> omega
    · rw [if_neg hwin, if_neg hwin]

/-- Closed instance of the `pad_or_crop` round-trip: a 3×3 integer array
padded to 5×5 and cropped back is unchanged at (1,2); cropped to 1×1 and
padded back it is zero at (0,0), which lies outside the crop window. -/
theorem pad_or_crop_roundtrip_witness :
    pad_or_crop (pad_or_crop (fun i j => (10 * i + j : ℤ)) 3 5) 5 3 1 2 =
      (fun i j => (10 * i + j : ℤ)) 1 2 ∧
    pad_or_crop (pad_or_crop (fun i j => (10 * i + j : ℤ)) 3 1) 1 3 0 0 =
      (if 3 / 2 - 1 / 2 ≤ 0 ∧ 0 < 3 / 2 - 1 / 2 + 1 ∧
          3 / 2 - 1 / 2 ≤ 0 ∧ 0 < 3 / 2 - 1 / 2 + 1 then
        (fun i j => (10 * i + j : ℤ)) 0 0 else 0) :=
  ⟨(pad_or_crop_roundtrip (fun i j => (10 * i + j : ℤ)) 3 5 1 2
      (by decide) (by decide)).1 (by decide),
   (pad_or_crop_roundtrip (fun i j => (10 * i + j : ℤ)) 3 1 0 0
      (by decide) (by decide)).2 (by decide)⟩

/-! ## Boolean-mask scatter (map_acts_to_dm)

`map_acts_to_dm(actuators, dm_mask, Nact)` flattens the `Nact×Nact`
boolean mask row-major, takes the indices of its `True` entries
(`np.where`), allocates an `Nact×Nact` zero array and fancy-assigns
`command.ravel()[inds] = actuators`.  Numpy raises unless the value list
broadcasts to the index list, i.e. unless the lengths agree or the value
list has length one; failure is modelled by `none`.  The returned command
is modelled by its row-major flattening. -/

/-- Row-major flattening of the `Nact×Nact` boolean mask. -/
def flatMask (Nact : ℕ) (mask : ℕ → ℕ → Bool) : List Bool :=
  (List.range (Nact * Nact)).map (fun p => mask (p / Nact) (p % Nact))

/-- Indices (in increasing order) of the `true` entries of a boolean list,
starting the position count at `p`: the embedding of `np.where(flat)[0]`. -/
def trueIndicesAux : List Bool → ℕ → List ℕ
  | [], _ => []
  | b :: rest, p =>
      if b then p :: trueIndicesAux rest (p + 1) else trueIndicesAux rest (p + 1)

def trueIndices (l : List Bool) : List ℕ := trueIndicesAux l 0

/-- Position of `pos` in a list of indices (`none` when absent): the index
pairing used by numpy fancy assignment `a[inds] = vals`. -/
def idxIn (pos : ℕ) : List ℕ → Option ℕ
  | [] => none
  | q :: rest => if q = pos then some 0 else (idxIn pos rest).map (· + 1)

theorem trueIndicesAux_length (l : List Bool) :
    ∀ p, (trueIndicesAux l p).length = l.count true := by
  induction l with
  | nil => intro p; simp [trueIndicesAux]
  | cons b rest ih =>
      intro p
      cases b <;> simp [trueIndicesAux, ih, List.count_cons]

theorem trueIndices_length (l : List Bool) :
    (trueIndices l).length = l.count true :=
  trueIndicesAux_length l 0

theorem trueIndicesAux_mem_ge (l : List Bool) :
    ∀ p x, x ∈ trueIndicesAux l p → p ≤ x := by
  induction l with
  | nil => intro p x hx; simp [trueIndicesAux] at hx
  | cons b rest ih =>
      intro p x hx
      cases b with
      | false => exact le_trans (Nat.le_succ p) (ih (p + 1) x (by simpa [trueIndicesAux] using hx))
      | true =>
          simp only [trueIndicesAux, if_pos, List.mem_cons] at hx
          rcases hx with rfl | hx
          · exact le_refl x
          · exact le_trans (Nat.le_succ p) (ih (p + 1) x hx)

theorem trueIndicesAux_mem_lt (l : List Bool) :
    ∀ p x, x ∈ trueIndicesAux l p → x < p + l.length := by
  induction l with
  | nil => intro p x hx; simp [trueIndicesAux] at hx
  | cons b rest ih =>
      intro p x hx
      cases b with
      | false =>
          have := ih (p + 1) x (by simpa [trueIndicesAux] using hx)
          simpa [Nat.add_comm, Nat.add_left_comm] using Nat.lt_of_lt_of_le this (by omega)
      | true =>
          simp only [trueIndicesAux, if_pos, List.mem_cons] at hx
          rcases hx with rfl | hx
          · simp only [List.length_cons]; omega
          · have := ih (p + 1) x hx
            simp only [List.length_cons]; omega

theorem trueIndicesAux_pairwise (l : List Bool) :
    ∀ p, (trueIndicesAux l p).Pairwise (· < ·) := by
  induction l with
  | nil => intro p; simp [trueIndicesAux]
  | cons b rest ih =>
      intro p
      cases b with
      | false => simpa [trueIndicesAux] using ih (p + 1)
      | true =>
          simp only [trueIndicesAux, if_pos, List.pairwise_cons]
          exact ⟨fun x hx => Nat.lt_of_lt_of_le (Nat.lt_succ_self p)
            (trueIndicesAux_mem_ge rest (p + 1) x hx), ih (p + 1)⟩

theorem trueIndices_pairwise (l : List Bool) :
    (trueIndices l).Pairwise (· < ·) :=
  trueIndicesAux_pairwise l 0

theorem trueIndices_mem_lt (l : List Bool) (x : ℕ) (hx : x ∈ trueIndices l) :
    x < l.length := by
  simpa using trueIndicesAux_mem_lt l 0 x hx

theorem idxIn_of_not_mem (pos : ℕ) (l : List ℕ) (h : pos ∉ l) :
    idxIn pos l = none := by
  induction l with
  | nil => rfl
  | cons q rest ih =>
      have hq : q ≠ pos := fun hEq => h (by simp [hEq])
      have hrest : pos ∉ rest := fun hmem => h (List.mem_cons_of_mem _ hmem)
      simp [idxIn, hq, ih hrest]

theorem idxIn_getD (l : List ℕ) (hl : l.Pairwise (· < ·)) :
    ∀ t, t < l.length → idxIn (l.getD t 0) l = some t := by
  induction l with
  | nil => intro t ht; simp at ht
  | cons q rest ih =>
      intro t ht
      cases t with
      | zero => simp [idxIn]
      | succ t =>
          have ht' : t < rest.length := by simpa using ht
          have hgd : (q :: rest).getD (t + 1) 0 = rest.getD t 0 := by
            simp [List.getD]
          have hmem : rest.getD t 0 ∈ rest := by
            have hg : rest.getD t 0 = rest.get ⟨t, ht'⟩ := List.getD_eq_get rest 0 ht'
            rw [hg]; exact List.get_mem rest t ht'
          have hq : q ≠ rest.getD t 0 := by
            have := (List.pairwise_cons.mp hl).1 _ hmem
            omega
          rw [hgd,
            show idxIn (rest.getD t 0) (q :: rest) =
              if q = rest.getD t 0 then some 0
              else (idxIn (rest.getD t 0) rest).map (· + 1) from rfl,
            if_neg hq, ih (List.pairwise_cons.mp hl).2 t ht']
          rfl

/-- Embedding of `map_acts_to_dm(actuators, dm_mask, Nact)`: scatter `actuators` onto
the flattened `Nact×Nact` grid at the `True` positions of the mask.
Mirrors numpy fancy assignment: succeeds when the actuator list has the
same length as the index list, or length one (broadcast); otherwise the
assignment raises (`none`). -/
def map_acts_to_dm {α : Type} [Zero α] (actuators : List α) (Nact : ℕ)
    (mask : ℕ → ℕ → Bool) : Option (ℕ → α) :=
  if actuators.length = (trueIndices (flatMask Nact mask)).length then
    some (fun pos =>
      match idxIn pos (trueIndices (flatMask Nact mask)) with
      | some t => actuators.getD t 0
      | none => 0)
  else if actuators.length = 1 then
    some (fun pos =>
      match idxIn pos (trueIndices (flatMask Nact mask)) with
      | some _ => actuators.getD 0 0
      | none => 0)
  else none

/-- C2 (amended): `map_acts_to_dm` fails iff the actuator count differs
from the number of `True` mask entries AND is not 1 (a length-1 list
broadcasts without error); when the counts agree, the output at the `t`-th
`True` position (row-major) is the `t`-th actuator and every other
position is 0. -/
theorem map_acts_to_dm_spec {α : Type} [Zero α] (actuators : List α) (Nact : ℕ)
    (mask : ℕ → ℕ → Bool) :
    ((map_acts_to_dm actuators Nact mask).isSome = true ↔
      (actuators.length = (flatMask Nact mask).count true ∨ actuators.length = 1)) ∧
    (actuators.length = (flatMask Nact mask).count true →
      ∃ f, map_acts_to_dm actuators Nact mask = some f ∧
        (∀ t, t < (flatMask Nact mask).count true →
          f ((trueIndices (flatMask Nact mask)).getD t 0) = actuators.getD t 0) ∧
        (∀ pos, pos ∉ trueIndices (flatMask Nact mask) → f pos = 0)) := by
  have hlen := trueIndices_length (flatMask Nact mask)
  constructor
  · constructor
    · intro hs
      by_contra hcon
      push_neg at hcon
      have h1 : actuators.length ≠ (trueIndices (flatMask Nact mask)).length := by
        rw [hlen]; exact hcon.1
      simp [map_acts_to_dm, h1, hcon.2] at hs
    · intro h
      rcases h with h | h
      · have h1 : actuators.length = (trueIndices (flatMask Nact mask)).length := by
          rw [hlen]; exact h
        simp only [map_acts_to_dm, if_pos h1, Option.isSome_some]
      · by_cases h1 : actuators.length = (trueIndices (flatMask Nact mask)).length
        · simp only [map_acts_to_dm, if_pos h1, Option.isSome_some]
        · simp only [map_acts_to_dm, if_neg h1, if_pos h, Option.isSome_some]
  · intro h
    have h1 : actuators.length = (trueIndices (flatMask Nact mask)).length := by
      rw [hlen]; exact h
    refine ⟨fun pos =>
        match idxIn pos (trueIndices (flatMask Nact mask)) with
        | some t => actuators.getD t 0
        | none => 0, ?_, ?_, ?_⟩
    · simp only [map_acts_to_dm, if_pos h1]
    · intro t ht
      have ht' : t < (trueIndices (flatMask Nact mask)).length := by rw [hlen]; exact ht
      simp only [idxIn_getD _ (trueIndices_pairwise _) t ht']
    · intro pos hpos
      simp [idxIn_of_not_mem pos _ hpos]

/-- Closed instance of `map_acts_to_dm`: with two active actuators and a
matching list `[3, 4]`, the call succeeds, places 3 and 4 at the active
positions and 0 elsewhere. -/
theorem map_acts_to_dm_witness :
    ∃ f, map_acts_to_dm ([3, 4] : List ℤ) 2 (fun i _ => i == 0) = some f ∧
      (∀ t, t < (flatMask 2 (fun i _ => i == 0)).count true →
        f ((trueIndices (flatMask 2 (fun i _ => i == 0))).getD t 0) =
          ([3, 4] : List ℤ).getD t 0) ∧
      (∀ pos, pos ∉ trueIndices (flatMask 2 (fun i _ => i == 0)) → f pos = 0) :=
  (map_acts_to_dm_spec ([3, 4] : List ℤ) 2 (fun i _ => i == 0)).2 (by decide)

/-- C2 counterexample: a single-element actuator list `[5]` against a mask
with two `True` entries does not raise — numpy broadcasts it — although
the claim as stated requires failure whenever the lengths differ. -/
theorem map_acts_to_dm_counterexample :
    (map_acts_to_dm ([5] : List ℤ) 2 (fun i _ => i == 0)).isSome = true ∧
      ([5] : List ℤ).length ≠ (flatMask 2 (fun i _ => i == 0)).count true := by
  decide

/-! ## Control matrices (WeightedLeastSquares, TikhonovInverse, beta_reg)

Numpy arrays with explicit shapes are modelled by `NMat`: a shape pair
plus a total entry function (only indices below the shape are
meaningful).  `xp.linalg.svd(A, full_matrices=False)` is modelled by
passing its output `U, s, Vt` (with `k = min(m, n)` singular values) as
arguments. -/

@[ext]
structure NMat (α : Type) where
  rows : ℕ
  cols : ℕ
  entry : ℕ → ℕ → α

variable {α : Type} [LinearOrderedField α]

/-- Transpose (`A.T`). -/
def NMat.t (A : NMat α) : NMat α := ⟨A.cols, A.rows, fun i j => A.entry j i⟩

/-- Matrix product (`A.dot(B)` / `xp.matmul`). -/
def NMat.mul (A B : NMat α) : NMat α :=
  ⟨A.rows, B.cols, fun i j => ∑ l ∈ Finset.range A.cols, A.entry i l * B.entry l j⟩

/-- Elementwise sum (`A + B`). -/
def NMat.add (A B : NMat α) : NMat α :=
  ⟨A.rows, A.cols, fun i j => A.entry i j + B.entry i j⟩

/-- Scalar multiple (`c * A`). -/
def NMat.smul (c : α) (A : NMat α) : NMat α :=
  ⟨A.rows, A.cols, fun i j => c * A.entry i j⟩

/-- Identity (`xp.eye(n)`). -/
def NMat.eye (α : Type) [LinearOrderedField α] (n : ℕ) : NMat α :=
  ⟨n, n, fun i j => if i = j then 1 else 0⟩

/-- Diagonal matrix from a vector given as a function with length `k`
(`xp.diag` applied to a 1D array). -/
def diagVec (k : ℕ) (s : ℕ → α) : NMat α :=
  ⟨k, k, fun i j => if i = j then s i else 0⟩

/-- Diagonal matrix from a list (`xp.diag(w)`). -/
def diagL (w : List α) : NMat α :=
  ⟨w.length, w.length, fun i j => if i = j then w.getD i 0 else 0⟩

/-- Maximum of the first `k` values of a vector (`v.max()`; numpy raises
on an empty array, here junk `s 0` is returned for `k = 0`). -/
def vecMax (k : ℕ) (s : ℕ → α) : α :=
  (List.range k).foldl (fun m t => max m (s t)) (s 0)

/-- Maximum of the diagonal (`xp.diag(M).max()`). -/
def diagMax (M : NMat α) : α := vecMax M.rows (fun i => M.entry i i)

/-- Matrix inverse (`xp.linalg.inv`), meaningful on square matrices:
entrywise `det⁻¹ * adjugate` of the leading `rows×rows` block. -/
def NMat.inv (M : NMat α) : NMat α :=
  ⟨M.rows, M.rows, fun i j =>
    if h : i < M.rows ∧ j < M.rows then
      (Matrix.of fun a b : Fin M.rows => M.entry a b).det⁻¹ *
        (Matrix.of fun a b : Fin M.rows => M.entry a b).adjugate ⟨i, h.1⟩ ⟨j, h.2⟩
    else 0⟩

/-- Column scaling `M * v` with numpy row-vector broadcasting: column `j`
of `M` is multiplied by `v j`. -/
def colScale (M : NMat α) (v : ℕ → α) : NMat α :=
  ⟨M.rows, M.cols, fun i j => M.entry i j * v j⟩

/-- Positive entries of `weight_map` (`weight_map[weight_map > 0]`)
concatenated `nprobes` times (the loop runs `nprobes - 1` times on top of
the initial copy). -/
def wConcat (weight_map : List α) (nprobes : ℕ) : List α :=
  (List.range (nprobes - 1)).foldl
    (fun acc _ => acc ++ weight_map.filter (fun x => 0 < x))
    (weight_map.filter (fun x => 0 < x))

/-- Embedding of `WeightedLeastSquares(A, weight_map, nprobes, rcond)`:
`inv(AᵀWA + rcond·max(diag(AᵀWA))·I) · AᵀW` with `W` the diagonal matrix
of replicated positive weights. -/
def WeightedLeastSquares (A : NMat α) (weight_map : List α) (nprobes : ℕ)
    (rcond : α) : NMat α :=
  ((((A.t.mul ((diagL (wConcat weight_map nprobes)).mul A)).add
      ((NMat.eye α A.cols).smul
        (rcond * diagMax (A.t.mul ((diagL (wConcat weight_map nprobes)).mul A))))).inv).mul
    (A.t.mul (diagL (wConcat weight_map nprobes))))

/-- The damped singular-value inversion `s/(s² + (rcond·max(s))²)`. -/
def tikhSinv (k : ℕ) (s : ℕ → α) (rcond : α) : ℕ → α :=
  fun t => s t / ((s t) ^ 2 + (rcond * vecMax k s) ^ 2)

/-- Embedding of `TikhonovInverse(A, rcond)` after `U, s, Vt = xp.linalg.svd(A,
full_matrices=False)`: the broadcast product `(Vt.T * s_inv).dot(U.T)`. -/
def TikhonovInverse (U : NMat α) (k : ℕ) (s : ℕ → α) (Vt : NMat α)
    (rcond : α) : NMat α :=
  (colScale Vt.t (tikhSinv k s rcond)).mul U.t

/-- Modelled from the spec: the claimed closed form
`Vt.T · diag(s/(s²+(rcond·max(s))²)) · U.T` with an explicit diagonal
matrix, to be compared with the broadcast implementation. -/
def tikhonovSpecForm (U : NMat α) (k : ℕ) (s : ℕ → α) (Vt : NMat α)
    (rcond : α) : NMat α :=
  (Vt.t.mul (diagVec k (tikhSinv k s rcond))).mul U.t

/-- Embedding of `beta_reg(S, beta)`: `inv(SᵀS + max(diag(SᵀS))·10^β·I) · Sᵀ`. -/
def beta_reg (S : NMat α) (beta : ℤ) : NMat α :=
  (((S.t.mul S).add
      ((NMat.eye α (S.t.mul S).rows).smul
        (vecMax (S.t.mul S).rows (fun i => (S.t.mul S).entry i i) * (10 : α) ^ beta))).inv).mul
    S.t

/-- C4: given a thin SVD `A = U·diag(s)·Vt` with `k` singular values,
`TikhonovInverse` (computed by broadcasting `s_inv` over the columns of
`Vt.T`) equals the damped least-squares closed form
`Vt.T · diag(s/(s²+(rcond·max(s))²)) · U.T`. -/
theorem tikhonov_eq_spec_form (A U Vt : NMat α) (k : ℕ) (s : ℕ → α) (rcond : α)
    (hU : U.cols = k) (hVt : Vt.rows = k)
    (hA : A = (U.mul (diagVec k s)).mul Vt) :
    TikhonovInverse U k s Vt rcond = tikhonovSpecForm U k s Vt rcond := by
  subst hVt
  ext i j
  · rfl
  · rfl
  · simp only [TikhonovInverse, tikhonovSpecForm, NMat.mul, colScale, NMat.t, diagVec]
    refine Finset.sum_congr rfl ?_
    intro l hl
    have hinner :
        (∑ x ∈ Finset.range Vt.rows,
          Vt.entry x i * (if x = l then tikhSinv Vt.rows s rcond x else 0)) =
          Vt.entry l i * tikhSinv Vt.rows s rcond l := by
      have := Finset.sum_ite_eq' (Finset.range Vt.rows) l
        (fun x => Vt.entry x i * tikhSinv Vt.rows s rcond x)
      simp only [mul_ite, mul_zero] at this ⊢
      rw [this, if_pos hl]
    rw [hinner]

/-- Closed instance of C4: the 1×1 identity SVD, where both the broadcast
implementation and the spec's diagonal form are evaluated. -/
theorem tikhonov_eq_spec_form_witness :
    TikhonovInverse (α := ℚ) ⟨1, 1, fun _ _ => 1⟩ 1 (fun _ => 1) ⟨1, 1, fun _ _ => 1⟩ 0 =
      tikhonovSpecForm (α := ℚ) ⟨1, 1, fun _ _ => 1⟩ 1 (fun _ => 1) ⟨1, 1, fun _ _ => 1⟩ 0 :=
  tikhonov_eq_spec_form
    ((NMat.mul ⟨1, 1, fun _ _ => 1⟩ (diagVec 1 (fun _ => 1))).mul ⟨1, 1, fun _ _ => 1⟩)
    ⟨1, 1, fun _ _ => 1⟩ ⟨1, 1, fun _ _ => 1⟩ 1 (fun _ => 1) 0 rfl rfl rfl

theorem wConcat_length (weight_map : List α) (nprobes : ℕ) (hn : 1 ≤ nprobes) :
    (wConcat weight_map nprobes).length =
      (weight_map.filter (fun x => 0 < x)).length * nprobes := by
  have key : ∀ (n : ℕ) (init p : List α),
      ((List.range n).foldl (fun acc _ => acc ++ p) init).length =
        init.length + n * p.length := by
    intro n
    induction n with
    | zero => intro init p; simp
    | succ n ih =>
        intro init p
        rw [List.range_succ, List.foldl_append]
        simp [ih, Nat.succ_mul]
        omega
  rw [wConcat, key]
  rcases Nat.exists_eq_add_of_le hn with ⟨n, rfl⟩
  have hsub : 1 + n - 1 = n := by omega
  rw [hsub]
  ring

/-- C5: each of `WeightedLeastSquares`, `TikhonovInverse` and `beta_reg`
maps a Jacobian of shape (measurements × actuators) to a matrix of the
transposed shape (actuators × measurements); for `WeightedLeastSquares`
the positive weights replicated `nprobes` times must match the
measurement count, and for `TikhonovInverse` the SVD factors are those of
the input Jacobian. -/
theorem control_matrix_shapes :
    (∀ (A : NMat α) (weight_map : List α) (nprobes : ℕ) (rcond : α),
      1 ≤ nprobes →
      (weight_map.filter (fun x => 0 < x)).length * nprobes = A.rows →
      (WeightedLeastSquares A weight_map nprobes rcond).rows = A.cols ∧
        (WeightedLeastSquares A weight_map nprobes rcond).cols = A.rows) ∧
    (∀ (A U Vt : NMat α) (k : ℕ) (s : ℕ → α) (rcond : α),
      U.rows = A.rows → Vt.cols = A.cols →
      (TikhonovInverse U k s Vt rcond).rows = A.cols ∧
        (TikhonovInverse U k s Vt rcond).cols = A.rows) ∧
    (∀ (S : NMat α) (beta : ℤ),
      (beta_reg S beta).rows = S.cols ∧ (beta_reg S beta).cols = S.rows) := by
  refine ⟨?_, ?_, ?_⟩
  · intro A weight_map nprobes rcond hn hw
    refine ⟨rfl, ?_⟩
    show (diagL (wConcat weight_map nprobes)).cols = A.rows
    show (wConcat weight_map nprobes).length = A.rows
    rw [wConcat_length weight_map nprobes hn, hw]
  · intro A U Vt k s rcond hU hVt
    exact ⟨hVt, hU⟩
  · intro S beta
    exact ⟨rfl, rfl⟩

/-- Closed instance of C5: a 2×3 all-ones Jacobian (2 measurements, 3
actuators) with weights `[1, -1]` and 2 probes yields 3×2 outputs from
all three routines. -/
theorem control_matrix_shapes_witness :
    ((WeightedLeastSquares (α := ℚ) ⟨2, 3, fun _ _ => 1⟩ [1, -1] 2 0).rows = 3 ∧
      (WeightedLeastSquares (α := ℚ) ⟨2, 3, fun _ _ => 1⟩ [1, -1] 2 0).cols = 2) ∧
    ((TikhonovInverse (α := ℚ) ⟨2, 2, fun _ _ => 1⟩ 2 (fun _ => 1) ⟨2, 3, fun _ _ => 1⟩ 0).rows = 3 ∧
      (TikhonovInverse (α := ℚ) ⟨2, 2, fun _ _ => 1⟩ 2 (fun _ => 1) ⟨2, 3, fun _ _ => 1⟩ 0).cols = 2) ∧
    ((beta_reg (α := ℚ) ⟨2, 3, fun _ _ => 1⟩ (-1)).rows = 3 ∧
      (beta_reg (α := ℚ) ⟨2, 3, fun _ _ => 1⟩ (-1)).cols = 2) :=
  ⟨(control_matrix_shapes.1 ⟨2, 3, fun _ _ => 1⟩ [1, -1] 2 0 (by decide) (by decide)),
   (control_matrix_shapes.2.1 ⟨2, 3, fun _ _ => 1⟩ ⟨2, 2, fun _ _ => 1⟩
      ⟨2, 3, fun _ _ => 1⟩ 2 (fun _ => 1) 0 rfl rfl),
   (control_matrix_shapes.2.2 ⟨2, 3, fun _ _ => 1⟩ (-1))⟩

/-! ## Hadamard modes (get_hadamard_modes)

`scipy.linalg.hadamard(2^k)` is the Sylvester construction: starting from
`[[1]]`, each doubling step stacks `[[H, H], [H, -H]]`. -/

/-- Entry `(i, j)` of the Sylvester Hadamard matrix of size `2^k`. -/
def hadEntry : ℕ → ℕ → ℕ → ℤ
  | 0, _, _ => 1
  | k + 1, i, j =>
      (if 2 ^ k ≤ i ∧ 2 ^ k ≤ j then -1 else 1) * hadEntry k (i % 2 ^ k) (j % 2 ^ k)

theorem hadEntry_pm1 : ∀ k i j, hadEntry k i j = 1 ∨ hadEntry k i j = -1 := by
  intro k
  induction k with
  | zero => intro i j; left; rfl
  | succ k ih =>
      intro i j
      rcases ih (i % 2 ^ k) (j % 2 ^ k) with h | h <;>
        by_cases hb : 2 ^ k ≤ i ∧ 2 ^ k ≤ j <;>
          simp [hadEntry, hb, h]

/-- Number of active actuators `dm_mask.sum()`. -/
def nActs (Nact : ℕ) (mask : ℕ → ℕ → Bool) : ℕ :=
  (flatMask Nact mask).count true

/-- Embedding of `get_hadamard_modes(dm_mask)`: build the Hadamard matrix of size
`2^ceil(log2(Nacts))`, truncate each row to the first `Nacts` entries and
scatter it onto the flattened `Nact×Nact` grid at the `True` positions of
the mask. -/
def get_hadamard_modes (Nact : ℕ) (mask : ℕ → ℕ → Bool) : List (List ℤ) :=
  (List.range (2 ^ Nat.clog 2 (nActs Nact mask))).map (fun r =>
    (List.range (Nact * Nact)).map (fun pos =>
      match idxIn pos (trueIndices (flatMask Nact mask)) with
      | some t => hadEntry (Nat.clog 2 (nActs Nact mask)) r t
      | none => 0))

theorem getD_map_range {β : Type} (f : ℕ → β) (n k : ℕ) (d : β) (h : k < n) :
    ((List.range n).map f).getD k d = f k := by
  induction n generalizing k with
  | zero => omega
  | succ n ih =>
      rw [List.range_succ, List.map_append]
      rcases Nat.lt_or_ge k n with hk | hk
      · rw [List.getD_append _ _ _ _ (by simpa using hk)]
        exact ih k hk
      · have hk' : k = n := by omega
        subst hk'
        rw [List.getD_append_right _ _ _ _ (by simp)]
        simp

/-- C10: for a mask with `Nacts > 0` active actuators,
`get_hadamard_modes` returns `2^ceil(log2 Nacts)` modes (strictly more
than `Nacts` when `Nacts` is not a power of two), each of length
`Nact·Nact`; the entry at the `t`-th `True` position (row-major) of mode
`r` is the `t`-th entry of Hadamard row `r` (which is `±1`), and every
other entry is 0. -/
theorem hadamard_modes_spec (Nact : ℕ) (mask : ℕ → ℕ → Bool)
    (hpos : 0 < nActs Nact mask) :
    (get_hadamard_modes Nact mask).length = 2 ^ Nat.clog 2 (nActs Nact mask) ∧
    ((∀ m : ℕ, nActs Nact mask ≠ 2 ^ m) →
      nActs Nact mask < (get_hadamard_modes Nact mask).length) ∧
    (∀ mo ∈ get_hadamard_modes Nact mask, mo.length = Nact * Nact) ∧
    (∀ r, r < 2 ^ Nat.clog 2 (nActs Nact mask) →
      ∀ t, t < nActs Nact mask →
        ((get_hadamard_modes Nact mask).getD r []).getD
            ((trueIndices (flatMask Nact mask)).getD t 0) 0 =
          hadEntry (Nat.clog 2 (nActs Nact mask)) r t ∧
        (hadEntry (Nat.clog 2 (nActs Nact mask)) r t = 1 ∨
          hadEntry (Nat.clog 2 (nActs Nact mask)) r t = -1)) ∧
    (∀ r, r < 2 ^ Nat.clog 2 (nActs Nact mask) →
      ∀ pos, pos < Nact * Nact → pos ∉ trueIndices (flatMask Nact mask) →
        ((get_hadamard_modes Nact mask).getD r []).getD pos 0 = 0) := by
  have hlenMask : (flatMask Nact mask).length = Nact * Nact := by
    simp [flatMask]
  have hlenInds : (trueIndices (flatMask Nact mask)).length = nActs Nact mask :=
    trueIndices_length _
  refine ⟨by simp [get_hadamard_modes], ?_, ?_, ?_, ?_⟩
  · intro hnp
    have hle : nActs Nact mask ≤ 2 ^ Nat.clog 2 (nActs Nact mask) :=
      Nat.le_pow_clog (by norm_num) _
    have hne : nActs Nact mask ≠ 2 ^ Nat.clog 2 (nActs Nact mask) := hnp _
    rw [show (get_hadamard_modes Nact mask).length =
        2 ^ Nat.clog 2 (nActs Nact mask) by simp [get_hadamard_modes]]
    omega
  · intro mo hmo
    rw [get_hadamard_modes] at hmo
    rcases List.mem_map.mp hmo with ⟨r, _, rfl⟩
    simp
  · intro r hr t ht
    have ht' : t < (trueIndices (flatMask Nact mask)).length := by
      rw [hlenInds]; exact ht
    have hposlt : (trueIndices (flatMask Nact mask)).getD t 0 < Nact * Nact := by
      rw [← hlenMask]
      apply trueIndices_mem_lt
      have hg : (trueIndices (flatMask Nact mask)).getD t 0 =
          (trueIndices (flatMask Nact mask)).get ⟨t, ht'⟩ :=
        List.getD_eq_get _ 0 ht'
      rw [hg]
      exact List.get_mem _ t ht'
    rw [get_hadamard_modes, getD_map_range _ _ _ _ hr, getD_map_range _ _ _ _ hposlt,
      idxIn_getD _ (trueIndices_pairwise _) t ht']
    exact ⟨rfl, hadEntry_pm1 _ r t⟩
  · intro r hr pos hposlt hnotmem
    rw [get_hadamard_modes, getD_map_range _ _ _ _ hr, getD_map_range _ _ _ _ hposlt,
      idxIn_of_not_mem pos _ hnotmem]

/-- Closed instance of C10: a 2×2 mask with 3 active actuators (not a
power of two) yields `2^2 = 4` Hadamard modes, strictly more than 3. -/
theorem hadamard_modes_spec_witness :
    (get_hadamard_modes 2 (fun i j => !(i == 1 && j == 1))).length =
      2 ^ Nat.clog 2 (nActs 2 (fun i j => !(i == 1 && j == 1))) ∧
    nActs 2 (fun i j => !(i == 1 && j == 1)) <
      (get_hadamard_modes 2 (fun i j => !(i == 1 && j == 1))).length := by
  have h := hadamard_modes_spec 2 (fun i j => !(i == 1 && j == 1)) (by decide)
  refine ⟨h.1, h.2.1 ?_⟩
  intro m
  have h3 : nActs 2 (fun i j => !(i == 1 && j == 1)) = 3 := by decide
  rw [h3]
  rcases m with _ | _ | m
  · decide
  · decide
  · have h4 : 4 ≤ 2 ^ (m + 2) := by
      have : 2 ^ 2 ≤ 2 ^ (m + 2) := Nat.pow_le_pow_right (by norm_num) (by omega)
      simpa using this
    omega

/-! ## fourier_mode

`fourier_mode(lambdaD_yx, rms, acts_per_D_yx, Nact, phase)` evaluates
`rms·√2·cos(2π(λy/ay·idy + λx/ax·idx) + phase)` on the `Nact×Nact` index
grid, where `idy, idx = np.indices((Nact, Nact)) - (34-1)/2.` — the
centring constant is hard-coded to `(34-1)/2 = 16.5` independently of
`Nact`. -/

open Real in
/-- Entry `(i, j)` of the array returned by `fourier_mode`. -/
noncomputable def fourier_mode (lambdaD_yx : ℝ × ℝ) (rms : ℝ)
    (acts_per_D_yx : ℝ × ℝ) (Nact : ℕ) (phase : ℝ) (i j : ℕ) : ℝ :=
  rms * Real.sqrt 2 *
    Real.cos (2 * π * (lambdaD_yx.1 / acts_per_D_yx.1 * ((i : ℝ) - (34 - 1) / 2) +
      lambdaD_yx.2 / acts_per_D_yx.2 * ((j : ℝ) - (34 - 1) / 2)) + phase)

open Real in
/-- C9: the centring offset of `fourier_mode` is the constant
`(34-1)/2 = 16.5` for every `Nact`: each grid entry equals
`rms·√2·cos(2π(λy/ay·(i-16.5) + λx/ax·(j-16.5)) + phase)`. -/
theorem fourier_mode_fixed_center (lambdaD_yx : ℝ × ℝ) (rms : ℝ)
    (acts_per_D_yx : ℝ × ℝ) (Nact : ℕ) (phase : ℝ) (i j : ℕ)
    (hi : i < Nact) (hj : j < Nact) :
    fourier_mode lambdaD_yx rms acts_per_D_yx Nact phase i j =
      rms * Real.sqrt 2 *
        Real.cos (2 * π * (lambdaD_yx.1 / acts_per_D_yx.1 * ((i : ℝ) - 16.5) +
          lambdaD_yx.2 / acts_per_D_yx.2 * ((j : ℝ) - 16.5)) + phase) := by
  norm_num [fourier_mode]

/-- Closed instance of C9 at `Nact = 2` (≠ 34): entry (0,0) uses the
offset 16.5 all the same. -/
theorem fourier_mode_fixed_center_witness :
    fourier_mode (1, 1) 1 (1, 1) 2 0 0 0 =
      1 * Real.sqrt 2 *
        Real.cos (2 * Real.pi * (1 / 1 * ((0 : ℝ) - 16.5) +
          1 / 1 * ((0 : ℝ) - 16.5)) + 0) := by
  exact_mod_cast fourier_mode_fixed_center (1, 1) 1 (1, 1) 2 0 0 0
    (by decide) (by decide)

open Real in
/-- C1 (amended): `phase = 0` gives the pure cosine
`rms·√2·cos(arg)`; `phase = π/2` gives the NEGATIVE sine
`-rms·√2·sin(arg)` (since `cos(arg + π/2) = -sin(arg)`), at every grid
point. -/
theorem fourier_mode_phase (lambdaD_yx : ℝ × ℝ) (rms : ℝ)
    (acts_per_D_yx : ℝ × ℝ) (Nact : ℕ) (i j : ℕ)
    (hi : i < Nact) (hj : j < Nact) :
    fourier_mode lambdaD_yx rms acts_per_D_yx Nact 0 i j =
      rms * Real.sqrt 2 *
        Real.cos (2 * π * (lambdaD_yx.1 / acts_per_D_yx.1 * ((i : ℝ) - (34 - 1) / 2) +
          lambdaD_yx.2 / acts_per_D_yx.2 * ((j : ℝ) - (34 - 1) / 2))) ∧
    fourier_mode lambdaD_yx rms acts_per_D_yx Nact (π / 2) i j =
      -(rms * Real.sqrt 2 *
        Real.sin (2 * π * (lambdaD_yx.1 / acts_per_D_yx.1 * ((i : ℝ) - (34 - 1) / 2) +
          lambdaD_yx.2 / acts_per_D_yx.2 * ((j : ℝ) - (34 - 1) / 2)))) := by
  constructor
  · simp [fourier_mode]
  · rw [fourier_mode, Real.cos_add_pi_div_two]
    ring

/-- Closed instance of the amended C1 at a 1×1 grid. -/
theorem fourier_mode_phase_witness :
    fourier_mode (1, 1) 1 (1, 1) 1 0 0 0 =
      1 * Real.sqrt 2 *
        Real.cos (2 * Real.pi * (1 / 1 * ((0 : ℝ) - (34 - 1) / 2) +
          1 / 1 * ((0 : ℝ) - (34 - 1) / 2))) ∧
    fourier_mode (1, 1) 1 (1, 1) 1 (Real.pi / 2) 0 0 =
      -(1 * Real.sqrt 2 *
        Real.sin (2 * Real.pi * (1 / 1 * ((0 : ℝ) - (34 - 1) / 2) +
          1 / 1 * ((0 : ℝ) - (34 - 1) / 2)))) := by
  exact_mod_cast fourier_mode_phase (1, 1) 1 (1, 1) 1 0 0 (by decide) (by decide)

open Real in
/-- C1 counterexample: with `lambdaD_yx = (1,0)`, `acts_per_D_yx = (66,1)`
and `rms = 1`, the frequency argument at grid point (0,0) is `-π/2`, so
`fourier_mode` with `phase = π/2` returns `√2·cos(0) = √2`, while the
claimed pure sine `√2·sin(-π/2) = -√2` differs. -/
theorem fourier_mode_phase_counterexample :
    fourier_mode (1, 0) 1 (66, 1) 34 (π / 2) 0 0 ≠
      1 * Real.sqrt 2 *
        Real.sin (2 * π * ((1 : ℝ) / 66 * ((0 : ℝ) - (34 - 1) / 2) +
          (0 : ℝ) / 1 * ((0 : ℝ) - (34 - 1) / 2))) := by
  have harg : 2 * π * ((1 : ℝ) / 66 * ((0 : ℝ) - (34 - 1) / 2) +
      (0 : ℝ) / 1 * ((0 : ℝ) - (34 - 1) / 2)) = -(π / 2) := by
    ring
  have hlhs : fourier_mode (1, 0) 1 (66, 1) 34 (π / 2) 0 0 = Real.sqrt 2 := by
    rw [fourier_mode]
    norm_num
    rw [show -(2 * π * (1 / 4)) + π / 2 = (0 : ℝ) by ring]
    exact Real.cos_zero
  have hrhs : 1 * Real.sqrt 2 *
      Real.sin (2 * π * ((1 : ℝ) / 66 * ((0 : ℝ) - (34 - 1) / 2) +
        (0 : ℝ) / 1 * ((0 : ℝ) - (34 - 1) / 2))) = -Real.sqrt 2 := by
    rw [harg]
    simp
  rw [hlhs, hrhs]
  have h2 : (0 : ℝ) < Real.sqrt 2 := Real.sqrt_pos.mpr (by norm_num)
  intro hEq
  nlinarith

/-! ## Sinc probes (create_sinc_probe, create_sinc_probes) -/

/-- Embedding of `np.round`: round half to even. -/
noncomputable def npRound (x : ℝ) : ℝ :=
  if Int.fract x = 1 / 2 then
    (if Even ⌊x⌋ then (⌊x⌋ : ℝ) else (⌊x⌋ : ℝ) + 1)
  else (round x : ℤ)

/-- Embedding of `np.sinc`: the normalized sinc `sin(πx)/(πx)` with value 1 at 0. -/
noncomputable def nsinc (x : ℝ) : ℝ :=
  if x = 0 then 1 else Real.sin (Real.pi * x) / (Real.pi * x)

/-- Element `idx` of `np.arange(-(Nacts-1)/2, (Nacts+1)/2)/Nacts -
np.round(offset)/Nacts`, the actuator coordinate grid of
`create_sinc_probe`. -/
noncomputable def xactsVal (Nacts : ℕ) (off : ℝ) (idx : ℕ) : ℝ :=
  (-(((Nacts : ℝ) - 1) / 2) + idx) / Nacts - npRound off / Nacts

/-- The `bad_axis` argument of `create_sinc_probe`. -/
inductive Axis
  | x
  | y
deriving DecidableEq

open Real in
/-- Entry `(i, j)` (row `i` = y index, column `j` = x index after
`np.meshgrid`) of `create_sinc_probe(Nacts, amp, probe_radius,
probe_phase, offset, bad_axis)`.  The `bad_axis` branch doubles the sinc
frequency along one axis and applies the cosine factor; a final
`probe_phase == 0` test overrides the result with the separable
double-frequency sinc envelope. -/
noncomputable def create_sinc_probe (Nacts : ℕ) (amp probe_radius probe_phase : ℝ)
    (offset : ℝ × ℝ) (bad_axis : Axis) (i j : ℕ) : ℝ :=
  let X := xactsVal Nacts offset.1 j
  let Y := xactsVal Nacts offset.2 i
  let base :=
    match bad_axis with
    | Axis.x =>
        amp * nsinc (2 * probe_radius * X) * nsinc (probe_radius * Y) *
          Real.cos (2 * π * (probe_radius / 2) * Y + probe_phase)
    | Axis.y =>
        amp * nsinc (probe_radius * X) * nsinc (2 * probe_radius * Y) *
          Real.cos (2 * π * (probe_radius / 2) * X + probe_phase)
  if probe_phase = 0 then
    amp * nsinc (2 * probe_radius * X) * nsinc (2 * probe_radius * Y)
  else base

/-- C6: with `probe_phase = 0` the special case fires:
`create_sinc_probe` returns `amp·sinc(2r·X)·sinc(2r·Y)` with no cosine
factor, identically for `bad_axis = x` and `bad_axis = y`. -/
theorem create_sinc_probe_phase_zero (Nacts : ℕ) (amp probe_radius : ℝ)
    (offset : ℝ × ℝ) (i j : ℕ) (hi : i < Nacts) (hj : j < Nacts) :
    create_sinc_probe Nacts amp probe_radius 0 offset Axis.x i j =
      amp * nsinc (2 * probe_radius * xactsVal Nacts offset.1 j) *
        nsinc (2 * probe_radius * xactsVal Nacts offset.2 i) ∧
    create_sinc_probe Nacts amp probe_radius 0 offset Axis.x i j =
      create_sinc_probe Nacts amp probe_radius 0 offset Axis.y i j := by
  constructor <;> simp [create_sinc_probe]

/-- Closed instance of C6 on a 1×1 grid. -/
theorem create_sinc_probe_phase_zero_witness :
    create_sinc_probe 1 1 10 0 (0, 0) Axis.x 0 0 =
      1 * nsinc (2 * 10 * xactsVal 1 (0, 0).1 0) *
        nsinc (2 * 10 * xactsVal 1 (0, 0).2 0) ∧
    create_sinc_probe 1 1 10 0 (0, 0) Axis.x 0 0 =
      create_sinc_probe 1 1 10 0 (0, 0) Axis.y 0 0 :=
  create_sinc_probe_phase_zero 1 1 10 (0, 0) 0 0 (by decide) (by decide)

/-- Element `i` of `np.linspace(start, stop, num)` (`endpoint=True`). -/
noncomputable def linspaceVal (start stop : ℝ) (num : ℕ) (i : ℕ) : ℝ :=
  if num ≤ 1 then start else start + i * (stop - start) / ((num : ℝ) - 1)

open Real in
/-- Probe phase `i` of `create_sinc_probes`:
`np.linspace(0, π(Npairs-1)/Npairs, Npairs)[i]`. -/
noncomputable def probePhases (Npairs : ℕ) (i : ℕ) : ℝ :=
  linspaceVal 0 (π * ((Npairs : ℝ) - 1) / Npairs) Npairs i

/-- Embedding of `create_sinc_probes(Npairs, Nact, dm_mask, amp, probe_radius,
probe_offset)`: `Npairs` probes, the `i`-th built with bad axis `x` for
even `i` and `y` for odd `i`, multiplied elementwise by the mask. -/
noncomputable def create_sinc_probes (Npairs Nact : ℕ) (mask : ℕ → ℕ → Bool)
    (probe_amplitude probe_radius : ℝ) (probe_offset : ℝ × ℝ) :
    List (ℕ → ℕ → ℝ) :=
  (List.range Npairs).map (fun k => fun i j =>
    create_sinc_probe Nact probe_amplitude probe_radius (probePhases Npairs k)
        probe_offset (if k % 2 = 0 then Axis.x else Axis.y) i j *
      (if mask i j then 1 else 0))

open Real in
/-- C7: `create_sinc_probes` returns exactly `Npairs` probes; probe `k`
is `create_sinc_probe` with phase `k·π/Npairs` (the linspace over
`[0, π(Npairs-1)/Npairs]`), bad axis `x` for even `k` and `y` for odd
`k`, multiplied elementwise by the mask. -/
theorem create_sinc_probes_spec (Npairs Nact : ℕ) (mask : ℕ → ℕ → Bool)
    (probe_amplitude probe_radius : ℝ) (probe_offset : ℝ × ℝ)
    (hN : 1 ≤ Npairs) :
    (create_sinc_probes Npairs Nact mask probe_amplitude probe_radius
        probe_offset).length = Npairs ∧
    (∀ k, k < Npairs → ∀ i j,
      ((create_sinc_probes Npairs Nact mask probe_amplitude probe_radius
          probe_offset).getD k (fun _ _ => 0)) i j =
        create_sinc_probe Nact probe_amplitude probe_radius
            ((k : ℝ) * π / Npairs) probe_offset
            (if k % 2 = 0 then Axis.x else Axis.y) i j *
          (if mask i j then 1 else 0)) := by
  have hphase : ∀ k, k < Npairs → probePhases Npairs k = (k : ℝ) * π / Npairs := by
    intro k hk
    rcases Nat.lt_or_ge Npairs 2 with h2 | h2
    · have hk0 : k = 0 := by omega
      have hN1 : Npairs = 1 := by omega
      subst hk0; subst hN1
      simp [probePhases, linspaceVal]
    · have hne : ¬ Npairs ≤ 1 := by omega
      have hNc : (2 : ℝ) ≤ (Npairs : ℝ) := by exact_mod_cast h2
      have hden : (Npairs : ℝ) - 1 ≠ 0 := by linarith
      have hden' : (Npairs : ℝ) ≠ 0 := by linarith
      rw [probePhases, linspaceVal, if_neg hne]
      field_simp
      ring
  constructor
  · simp [create_sinc_probes]
  · intro k hk i j
    rw [create_sinc_probes, getD_map_range _ _ _ _ hk, hphase k hk]

/-- Closed instance of C7 with two probe pairs. -/
theorem create_sinc_probes_spec_witness :
    (create_sinc_probes 2 3 (fun _ _ => true) 1 10 (0, 0)).length = 2 ∧
    (∀ k, k < 2 → ∀ i j,
      ((create_sinc_probes 2 3 (fun _ _ => true) 1 10 (0, 0)).getD k
          (fun _ _ => 0)) i j =
        create_sinc_probe 3 1 10 ((k : ℝ) * Real.pi / 2) (0, 0)
            (if k % 2 = 0 then Axis.x else Axis.y) i j *
          (if (fun _ _ => true : ℕ → ℕ → Bool) i j then 1 else 0)) := by
  exact_mod_cast create_sinc_probes_spec 2 3 (fun _ _ => true) 1 10 (0, 0)
    (by decide)

/-! ## Radial contrast (get_radial_dist, get_radial_contrast)

`get_radial_contrast(im, mask, nbins, cenyx)` computes per-pixel radial
distances, `bins = np.linspace(0, radial.max(), num=nbins)` (these are
`nbins` EDGES), `digrad = np.digitize(radial, bins)` (the number of edges
`≤ x`, an index in `1..nbins` here since `radial ≥ 0 = bins[0]`), and one
`np.mean` per index in `np.unique(digrad)`.  The empty masked mean (numpy
`NaN`) is modelled by real division `0/0 = 0`. -/

/-- Radial distance of pixel `(i, j)` from `cenyx`, scaled per axis
(`get_radial_dist`; the callers use the default scale `(1, 1)`). -/
noncomputable def get_radial_dist (scaleyx cenyx : ℝ × ℝ) (i j : ℕ) : ℝ :=
  Real.sqrt ((scaleyx.1 * ((i : ℝ) - cenyx.1)) ^ 2 +
    (scaleyx.2 * ((j : ℝ) - cenyx.2)) ^ 2)

/-- The centre used by `get_radial_contrast`: `cenyx` when given,
otherwise `((h-1)/2, (w-1)/2)`. -/
noncomputable def grcCen (h w : ℕ) (cenyx : Option (ℝ × ℝ)) : ℝ × ℝ :=
  cenyx.getD (((h : ℝ) - 1) / 2, ((w : ℝ) - 1) / 2)

/-- The pixel index set of an `h×w` image. -/
def pixelGrid (h w : ℕ) : Finset (ℕ × ℕ) := Finset.range h ×ˢ Finset.range w

/-- Maximum `radial.max()` over the image. -/
noncomputable def radialMax (h w : ℕ) (cenyx : Option (ℝ × ℝ)) : ℝ :=
  if hne : (pixelGrid h w).Nonempty then
    (pixelGrid h w).sup' hne
      (fun p => get_radial_dist (1, 1) (grcCen h w cenyx) p.1 p.2)
  else 0

/-- Bin edge `k`: `np.linspace(0, radial.max(), num=nbins)[k]`. -/
noncomputable def binEdge (h w nbins : ℕ) (cenyx : Option (ℝ × ℝ)) (k : ℕ) : ℝ :=
  linspaceVal 0 (radialMax h w cenyx) nbins k

/-- Embedding of `np.digitize(radial, bins)[i, j]`: the number of bin edges `≤` the
radial distance of pixel `(i, j)`. -/
noncomputable def digrad (h w nbins : ℕ) (cenyx : Option (ℝ × ℝ)) (i j : ℕ) : ℕ :=
  ((Finset.range nbins).filter
    (fun k => binEdge h w nbins cenyx k ≤
      get_radial_dist (1, 1) (grcCen h w cenyx) i j)).card

/-- Embedding of `np.unique(digrad)` as a finite set. -/
noncomputable def uniqueDig (h w nbins : ℕ) (cenyx : Option (ℝ × ℝ)) : Finset ℕ :=
  (pixelGrid h w).image (fun p => digrad h w nbins cenyx p.1 p.2)

/-- Embedding of `np.mean(im[(digrad == u) & mask])`. -/
noncomputable def binMean (im : ℕ → ℕ → ℝ) (mask : ℕ → ℕ → Bool)
    (h w nbins : ℕ) (cenyx : Option (ℝ × ℝ)) (u : ℕ) : ℝ :=
  (∑ p ∈ (pixelGrid h w).filter
      (fun p => digrad h w nbins cenyx p.1 p.2 = u ∧ mask p.1 p.2), im p.1 p.2) /
    ((pixelGrid h w).filter
      (fun p => digrad h w nbins cenyx p.1 p.2 = u ∧ mask p.1 p.2)).card

/-- The profile returned by `get_radial_contrast`: one masked mean per
occurring digitize index, in increasing index order. -/
noncomputable def get_radial_contrast (im : ℕ → ℕ → ℝ) (mask : ℕ → ℕ → Bool)
    (h w nbins : ℕ) (cenyx : Option (ℝ × ℝ)) : List ℝ :=
  ((uniqueDig h w nbins cenyx).sort (· ≤ ·)).map (binMean im mask h w nbins cenyx)

theorem getD_map_lt {β γ : Type} (f : β → γ) (l : List β) (k : ℕ) (d : γ) (d' : β)
    (hk : k < l.length) : (l.map f).getD k d = f (l.getD k d') := by
  induction l generalizing k with
  | nil => simp at hk
  | cons a tl ih =>
      cases k with
      | zero => rfl
      | succ k => simpa using ih k (by simpa using hk)

theorem radialMax_nonneg (h w : ℕ) (cenyx : Option (ℝ × ℝ)) :
    0 ≤ radialMax h w cenyx := by
  by_cases hne : (pixelGrid h w).Nonempty
  · rw [radialMax, dif_pos hne]
    obtain ⟨p, hp⟩ := hne
    have h0 : (0 : ℝ) ≤ get_radial_dist (1, 1) (grcCen h w cenyx) p.1 p.2 := by
      rw [get_radial_dist]
      exact Real.sqrt_nonneg _
    exact le_trans h0 (Finset.le_sup'
      (fun q : ℕ × ℕ => get_radial_dist (1, 1) (grcCen h w cenyx) q.1 q.2) hp)
  · rw [radialMax, dif_neg hne]

/-- C8 (amended): `get_radial_contrast` builds `nbins` equally spaced bin
EDGES spanning `[0, radial.max()]` (so `nbins - 1` equal-width intervals
plus an overflow index); every pixel receives a digitize index in
`1..nbins`, pixels attaining the maximal radius receive `nbins`; the
profile has one entry per OCCURRING index — each index in the profile is
attained by some pixel — and entry `k` is the masked mean over the `k`-th
occurring index. -/
theorem get_radial_contrast_spec (im : ℕ → ℕ → ℝ) (mask : ℕ → ℕ → Bool)
    (h w nbins : ℕ) (cenyx : Option (ℝ × ℝ))
    (hh : 0 < h) (hw : 0 < w) (hb : 2 ≤ nbins) :
    (∀ k, binEdge h w nbins cenyx k =
      (k : ℝ) * radialMax h w cenyx / ((nbins : ℝ) - 1)) ∧
    (get_radial_contrast im mask h w nbins cenyx).length =
      (uniqueDig h w nbins cenyx).card ∧
    (∀ i j, i < h → j < w →
      1 ≤ digrad h w nbins cenyx i j ∧ digrad h w nbins cenyx i j ≤ nbins) ∧
    (∀ i j, i < h → j < w →
      get_radial_dist (1, 1) (grcCen h w cenyx) i j = radialMax h w cenyx →
      digrad h w nbins cenyx i j = nbins) ∧
    (∀ k, k < (get_radial_contrast im mask h w nbins cenyx).length →
      (get_radial_contrast im mask h w nbins cenyx).getD k 0 =
        binMean im mask h w nbins cenyx
          (((uniqueDig h w nbins cenyx).sort (· ≤ ·)).getD k 0)) ∧
    (∀ u ∈ uniqueDig h w nbins cenyx,
      ∃ i j, i < h ∧ j < w ∧ digrad h w nbins cenyx i j = u) := by
  have hnc : (2 : ℝ) ≤ (nbins : ℝ) := by exact_mod_cast hb
  have hd : (0 : ℝ) < (nbins : ℝ) - 1 := by linarith
  have hedge : ∀ k, binEdge h w nbins cenyx k =
      (k : ℝ) * radialMax h w cenyx / ((nbins : ℝ) - 1) := by
    intro k
    rw [binEdge, linspaceVal, if_neg (by omega)]
    ring
  have hedge_le : ∀ k, k < nbins →
      binEdge h w nbins cenyx k ≤ radialMax h w cenyx := by
    intro k hk
    rw [hedge k, div_le_iff hd]
    have hkc : (k : ℝ) ≤ (nbins : ℝ) - 1 := by
      have : (k : ℝ) + 1 ≤ (nbins : ℝ) := by exact_mod_cast hk
      linarith
    nlinarith [radialMax_nonneg h w cenyx]
  refine ⟨hedge, ?_, ?_, ?_, ?_, ?_⟩
  · simp [get_radial_contrast, Finset.length_sort]
  · intro i j hi hj
    constructor
    · apply Finset.card_pos.mpr
      refine ⟨0, Finset.mem_filter.mpr ⟨Finset.mem_range.mpr (by omega), ?_⟩⟩
      rw [hedge 0]
      simp [Real.sqrt_nonneg, get_radial_dist]
    · exact le_trans (Finset.card_filter_le _ _) (by simp)
  · intro i j hi hj hmax
    rw [digrad, hmax, Finset.filter_true_of_mem, Finset.card_range]
    intro k hk
    exact hedge_le k (Finset.mem_range.mp hk)
  · intro k hk
    rw [get_radial_contrast] at hk ⊢
    rw [List.length_map, Finset.length_sort] at hk
    exact getD_map_lt _ _ k 0 0 (by rw [Finset.length_sort]; exact hk)
  · intro u hu
    rcases Finset.mem_image.mp hu with ⟨p, hp, rfl⟩
    rcases Finset.mem_product.mp hp with ⟨h1, h2⟩
    exact ⟨p.1, p.2, Finset.mem_range.mp h1, Finset.mem_range.mp h2, rfl⟩

/-- Closed instance of the amended C8 on a 2×2 all-ones image. -/
theorem get_radial_contrast_spec_witness :
    (get_radial_contrast (fun _ _ => 1) (fun _ _ => true) 2 2 3 none).length =
      (uniqueDig 2 2 3 none).card ∧
    (1 ≤ digrad 2 2 3 none 0 0 ∧ digrad 2 2 3 none 0 0 ≤ 3) := by
  have h := get_radial_contrast_spec (fun _ _ => 1) (fun _ _ => true) 2 2 3 none
    (by decide) (by decide) (by decide)
  exact ⟨h.2.1, h.2.2.1 0 0 (by decide) (by decide)⟩

/-- C8 counterexample: on a 2×2 image all four pixels lie at the same
radius `√(1/2)`, every pixel digitizes to the overflow index 3, and
`get_radial_contrast` with `nbins = 3` returns a single averaged value —
not one value per bin (`nbins = 3` values) as the claim states. -/
theorem get_radial_contrast_counterexample :
    (get_radial_contrast (fun _ _ => 1) (fun _ _ => true) 2 2 3 none).length ≠ 3 := by
  have hcen : grcCen 2 2 none = ((1 : ℝ) / 2, (1 : ℝ) / 2) := by
    rw [grcCen]
    norm_num
  have hrad : ∀ p ∈ pixelGrid 2 2,
      get_radial_dist (1, 1) (grcCen 2 2 none) p.1 p.2 = Real.sqrt (1 / 2) := by
    rintro ⟨i, j⟩ hp
    rcases Finset.mem_product.mp hp with ⟨h1, h2⟩
    have hi : i < 2 := Finset.mem_range.mp h1
    have hj : j < 2 := Finset.mem_range.mp h2
    rw [hcen, get_radial_dist]
    interval_cases i <;> interval_cases j <;> norm_num
  have hne : (pixelGrid 2 2).Nonempty := ⟨(0, 0), by decide⟩
  have hmax : radialMax 2 2 none = Real.sqrt (1 / 2) := by
    rw [radialMax, dif_pos hne]
    apply le_antisymm
    · apply Finset.sup'_le
      intro p hp
      rw [hrad p hp]
    · have h00 : ((0, 0) : ℕ × ℕ) ∈ pixelGrid 2 2 := by decide
      have := Finset.le_sup'
        (fun p : ℕ × ℕ => get_radial_dist (1, 1) (grcCen 2 2 none) p.1 p.2) h00
      rwa [hrad (0, 0) h00] at this
  have hs : (0 : ℝ) ≤ Real.sqrt (1 / 2) := Real.sqrt_nonneg _
  have hdig : ∀ p ∈ pixelGrid 2 2, digrad 2 2 3 none p.1 p.2 = 3 := by
    intro p hp
    rw [digrad, hrad p hp, Finset.filter_true_of_mem, Finset.card_range]
    intro k hk
    have hk3 : k < 3 := Finset.mem_range.mp hk
    rw [binEdge, linspaceVal, if_neg (by omega), hmax]
    interval_cases k <;> norm_num <;> linarith
  have himg : uniqueDig 2 2 3 none = {3} := by
    rw [uniqueDig,
      Finset.image_congr (g := fun _ => 3) (fun p hp => hdig p (by simpa using hp))]
    exact Finset.image_const hne 3
  rw [get_radial_contrast, List.length_map, Finset.length_sort, himg]
  norm_num

end Lina
